/-
Verification of `gen_test_output.py` (Bhargee/KRewrites).

The script is:

    TEST_DIR = 'tests'
    files = [f for f in listdir(TEST_DIR) if isfile(join(TEST_DIR,f)) and not '.out' in f]
    for file in files:
        file = '%s/%s' % (TEST_DIR, file)
        system('krun --search %s > %s.out' % (file, file))

Shallow embedding:
  * the filesystem is a list of directories and a list of (path, content) files;
  * `listdir`, `isfile`, the list comprehension and the loop are translated directly;
  * `os.system` runs its string through the shell, so the command string is
    tokenized on spaces and a bare `>` token is an output redirection taking the
    next token as target (each target is opened/truncated, the command's standard
    output goes to the last target);
  * the external `krun` executable is an oracle mapping its argument list to an
    exit code and captured standard output; the script ignores the exit code,
    exactly as `os.system`'s return value is discarded.

File names are `List Char` so that every operation is computable and provable by
structural induction.
-/
import Mathlib

namespace GenTestOutput

/-- File names, paths, file contents and command strings are character lists. -/
abbrev Str := List Char

/-- `TEST_DIR = 'tests'` (line 5 of the script). -/
def TEST_DIR : Str := "tests".toList

/-- The fixed suffix `'.out'` used both to filter inputs and to name outputs. -/
def outExt : Str := ".out".toList

/-- Boolean prefix test on character lists. -/
def isPrefixB : Str → Str → Bool
  | [], _ => true
  | _ :: _, [] => false
  | a :: as, b :: bs => if a = b then isPrefixB as bs else false

/-- Boolean substring test, mirroring Python's `'.out' in f`. -/
def isInfixB (p : Str) : Str → Bool
  | [] => isPrefixB p []
  | c :: t => isPrefixB p (c :: t) || isInfixB p t

/-- A filesystem: the set of directories and the regular files with contents. -/
structure FS where
  dirs : List Str
  files : List (Str × Str)
deriving DecidableEq, Repr

/-- The paths of all regular files. -/
def keys (fs : FS) : List Str := fs.files.map Prod.fst

/-- A well-formed filesystem has no duplicate paths. -/
abbrev wf (fs : FS) : Prop := (keys fs ++ fs.dirs).Nodup

/-- The name of `p` as a direct child of directory `d`, when it is one. -/
def childName (d : Str) (p : Str) : Option Str :=
  if isPrefixB (d ++ ['/']) p then
    let n := p.drop (d.length + 1)
    if n.isEmpty || n.contains '/' then none else some n
  else none

/-- `os.listdir(d)`: the names of direct entries of `d`, or failure when `d`
is not a directory (line 6 raises in that case). -/
def listdir (fs : FS) (d : Str) : Option (List Str) :=
  if d ∈ fs.dirs then some ((keys fs ++ fs.dirs).filterMap (childName d)) else none

/-- `os.path.isfile(p)`: `p` is a regular file. -/
def isfile (fs : FS) (p : Str) : Bool := fs.files.any (fun e => e.1 = p)

/-- `'%s/%s' % (TEST_DIR, f)`, which on `listdir`-produced names (they contain
no '/') coincides with `os.path.join(TEST_DIR, f)` used on line 6. -/
def joinT (f : Str) : Str := TEST_DIR ++ '/' :: f

/-- Line 6: `[f for f in listdir(TEST_DIR) if isfile(join(TEST_DIR,f)) and not '.out' in f]`. -/
def inputsOf (fs : FS) : Option (List Str) :=
  (listdir fs TEST_DIR).map
    (List.filter (fun f => isfile fs (joinT f) && !isInfixB outExt f))

/-- Result of executing the external `krun` process: exit code and captured
standard output. -/
structure KrunRes where
  exitCode : Int
  stdout : Str

/-- The external command, as a black box from its argument list to its result. -/
abbrev Oracle := List Str → KrunRes

/-- Write (create or overwrite) a file. The first entry with the same path is
replaced in place; a new path is appended. -/
def setFile : List (Str × Str) → Str → Str → List (Str × Str)
  | [], p, c => [(p, c)]
  | e :: es, p, c => if e.1 = p then (p, c) :: es else e :: setFile es p c

/-- Content of the file at `p`, when present. -/
def getFile (fs : FS) (p : Str) : Option Str :=
  (fs.files.find? (fun e => e.1 = p)).map Prod.snd

/-- Write a file into the filesystem. -/
def writeFS (fs : FS) (p c : Str) : FS := ⟨fs.dirs, setFile fs.files p c⟩

/-- Shell word splitting on the space character (accumulator holds the current
word reversed). -/
def tokA (acc : Str) : Str → List Str
  | [] => if acc = [] then [] else [acc.reverse]
  | c :: cs =>
    if c = ' ' then (if acc = [] then tokA [] cs else acc.reverse :: tokA [] cs)
    else tokA (c :: acc) cs

/-- Split a command string into shell words. -/
def tokenize (s : Str) : List Str := tokA [] s

/-- A parsed shell simple command: the command words and the `>` redirection
targets in order. -/
structure ShCmd where
  words : List Str
  redirs : List Str
deriving DecidableEq, Repr

/-- Separate a token list into command words and redirection targets: a bare
`>` token consumes the following token as target; a trailing `>` is a shell
syntax error. -/
def parseToks : List Str → Option ShCmd
  | [] => some ⟨[], []⟩
  | t :: ts =>
    if t = ['>'] then
      match ts with
      | [] => none
      | tgt :: ts2 => (parseToks ts2).map (fun c => ⟨c.words, tgt :: c.redirs⟩)
    else (parseToks ts).map (fun c => ⟨t :: c.words, c.redirs⟩)

/-- `os.system(cmd)`: the shell opens (creates or truncates) every redirection
target in order, then runs the command with its standard output captured into
the last target. The exit status is returned to the caller, which ignores it. -/
def execCmd (k : Oracle) (fs : FS) (cmd : Str) : FS :=
  match parseToks (tokenize cmd) with
  | none => fs
  | some c =>
    let fs1 := c.redirs.foldl (fun a t => writeFS a t []) fs
    match c.redirs.getLast? with
    | none => fs1
    | some tgt =>
      match c.words with
      | [] => fs1
      | _ :: args => writeFS fs1 tgt (k args).stdout

/-- Line 9's command string: `'krun --search %s > %s.out' % (file, file)`. -/
def cmdStr (path : Str) : Str :=
  "krun --search ".toList ++ path ++ " > ".toList ++ path ++ outExt

/-- Observable record of one loop iteration: the directory-entry name, the
interpolated input path, and the program, arguments and redirection targets of
the shell command that was executed. -/
structure Inv where
  name : Str
  input : Str
  prog : Option Str
  args : List Str
  redirs : List Str
deriving DecidableEq, Repr

/-- The invocation record for the directory entry `n`. -/
def invOf (n : Str) : Inv :=
  match parseToks (tokenize (cmdStr (joinT n))) with
  | some c => ⟨n, joinT n, c.words.head?, c.words.drop 1, c.redirs⟩
  | none => ⟨n, joinT n, none, [], []⟩

/-- One iteration of the loop (lines 8-9) on the entry name `n`. -/
def step (k : Oracle) (fs : FS) (n : Str) : FS := execCmd k fs (cmdStr (joinT n))

/-- The loop of lines 7-9 over the precomputed name list, also returning the
invocation trace. -/
def runBody (k : Oracle) : FS → List Str → FS × List Inv
  | fs, [] => (fs, [])
  | fs, n :: ns =>
    let r := runBody k (step k fs n) ns
    (r.1, invOf n :: r.2)

/-- One run of the whole script: enumerate and filter (line 6), then loop;
`none` is the uncontrolled `listdir` error. -/
def run (k : Oracle) (fs : FS) : Option (FS × List Inv) :=
  (inputsOf fs).map (fun ns => runBody k fs ns)

/-- The output path for the entry `n`: `'%s.out'` of the input path. -/
def outPath (n : Str) : Str := joinT n ++ outExt

/-- Characters that the POSIX shell passes through unchanged outside quotes. -/
def shellSafeChar (c : Char) : Bool := c.isAlphanum || c = '.' || c = '_' || c = '-'

/-- A name is shell-safe when the unquoted interpolation of lines 8-9 keeps it
a single shell word. -/
def shellSafe (n : Str) : Bool := n.all shellSafeChar

/-! Concrete instances used to exercise the theorems. -/

/-- A `tests` directory holding one well-behaved input file. -/
def exFS : FS := ⟨["tests".toList], [("tests/a.test".toList, "IN".toList)]⟩

/-- An external command that succeeds and prints `OUT`. -/
def exOracle : Oracle := fun _ => ⟨0, "OUT".toList⟩

/-- An absent external command: exit code 127 and no standard output. -/
def exAbsentOracle : Oracle := fun _ => ⟨127, []⟩

/-- A succeeding external command that prints nothing. -/
def exSilentOracle : Oracle := fun _ => ⟨0, []⟩

/-- The state of `exFS` after one run with `exOracle`. -/
def exFS1 : FS :=
  ⟨["tests".toList],
   [("tests/a.test".toList, "IN".toList), ("tests/a.test.out".toList, "OUT".toList)]⟩

/-- The single invocation performed by a run over `exFS`. -/
def exInv : Inv :=
  ⟨"a.test".toList, "tests/a.test".toList, some "krun".toList,
   ["--search".toList, "tests/a.test".toList], ["tests/a.test.out".toList]⟩

/-- The invocation trace of a run over `exFS`. -/
def exTr : List Inv := [exInv]

/-- A `tests` directory holding one input file whose name contains a space. -/
def exBadFS : FS := ⟨["tests".toList], [("tests/a b".toList, "IN".toList)]⟩

/-- The state of `exFS` after one run with `exAbsentOracle`: the output file
exists but is empty. -/
def exAbsFS1 : FS :=
  ⟨["tests".toList],
   [("tests/a.test".toList, "IN".toList), ("tests/a.test.out".toList, [])]⟩

/-! Basic facts about the boolean string predicates. -/

theorem isPrefixB_refl (l : Str) : isPrefixB l l = true := by
  induction l with
  | nil => rfl
  | cons c t ih => simp [isPrefixB, ih]

theorem isInfixB_self (p : Str) : isInfixB p p = true := by
  cases p with
  | nil => rfl
  | cons c t => simp [isInfixB, isPrefixB_refl]

theorem isInfixB_suffix (p x : Str) : isInfixB p (x ++ p) = true := by
  induction x with
  | nil => simpa using isInfixB_self p
  | cons c t ih => simp [isInfixB, ih]

theorem isPrefixB_iff (a : Str) : ∀ b : Str, isPrefixB a b = true ↔ ∃ t, b = a ++ t := by
  induction a with
  | nil => intro b; simp [isPrefixB]
  | cons c as ih =>
    intro b
    cases b with
    | nil => simp [isPrefixB]
    | cons d bs =>
      by_cases h : c = d
      · subst h
        simp [isPrefixB, ih]
      · simp only [isPrefixB, if_neg h, Bool.false_eq_true, false_iff]
        rintro ⟨t, ht⟩
        injection ht with h1 _
        exact h h1.symm

/-! Facts about directory-entry extraction. -/

theorem childName_some_shape {d p x : Str} (h : childName d p = some x) :
    p = d ++ '/' :: x := by
  unfold childName at h
  by_cases hpre : isPrefixB (d ++ ['/']) p = true
  · rw [if_pos hpre] at h
    rcases (isPrefixB_iff _ _).mp hpre with ⟨t, ht⟩
    have hlen : (d ++ ['/']).length = d.length + 1 := by simp
    have hdrop : p.drop (d.length + 1) = t := by rw [ht, ← hlen, List.drop_left]
    rw [hdrop] at h
    by_cases he : (t.isEmpty || t.contains '/') = true
    · rw [if_pos he] at h; cases h
    · rw [if_neg he] at h
      injection h with h1
      subst h1
      rw [ht]
      simp
  · rw [if_neg hpre] at h; cases h

theorem childName_inj {d a b x : Str} (ha : childName d a = some x)
    (hb : childName d b = some x) : a = b := by
  rw [childName_some_shape ha, childName_some_shape hb]

/-! Facts about path construction. -/

theorem joinT_cons (n : Str) : joinT n = 't' :: 'e' :: 's' :: 't' :: 's' :: '/' :: n := rfl

theorem joinT_ne_nil (n : Str) : joinT n ≠ [] := by
  rw [joinT_cons]; simp

theorem joinT_ne_gt (n : Str) : joinT n ≠ ['>'] := by
  rw [joinT_cons]
  intro h
  injection h with h1 _
  exact absurd h1 (by decide)

theorem joinT_inj {a b : Str} (h : joinT a = joinT b) : a = b := by
  unfold joinT at h
  have h2 := List.append_cancel_left h
  injection h2

theorem outPath_inj {a b : Str} (h : outPath a = outPath b) : a = b := by
  unfold outPath at h
  exact joinT_inj (List.append_cancel_right h)

theorem outPath_eq_joinT (n : Str) : outPath n = joinT (n ++ outExt) := by
  simp [outPath, joinT, List.append_assoc]

/-! Facts about file writes. -/

theorem setFile_keys (fl : List (Str × Str)) (p c : Str) :
    (setFile fl p c).map Prod.fst =
      if p ∈ fl.map Prod.fst then fl.map Prod.fst else fl.map Prod.fst ++ [p] := by
  induction fl with
  | nil => simp [setFile]
  | cons e es ih =>
    by_cases h : e.1 = p
    · simp [setFile, h]
    · have h2 : ¬ p = e.1 := fun hh => h hh.symm
      by_cases hm : p ∈ es.map Prod.fst
      · simp [setFile, h, h2, hm, ih]
      · simp [setFile, h, h2, hm, ih]

theorem find?_setFile_self (fl : List (Str × Str)) (p c : Str) :
    (setFile fl p c).find? (fun e => e.1 = p) = some (p, c) := by
  induction fl with
  | nil => simp [setFile, List.find?]
  | cons e es ih =>
    by_cases h : e.1 = p
    · simp [setFile, h, List.find?]
    · simp [setFile, h, List.find?, ih]

theorem find?_setFile_other (fl : List (Str × Str)) (p c q : Str) (h : q ≠ p) :
    (setFile fl p c).find? (fun e => e.1 = q) = fl.find? (fun e => e.1 = q) := by
  have h2 : ¬ p = q := fun hh => h hh.symm
  induction fl with
  | nil => simp [setFile, List.find?, h2]
  | cons e es ih =>
    by_cases he : e.1 = p
    · simp [setFile, he, List.find?, h2]
    · simp only [setFile, if_neg he]
      by_cases hq : e.1 = q
      · simp [List.find?, hq]
      · simp [List.find?, hq, ih]

theorem getFile_writeFS_self (fs : FS) (p c : Str) : getFile (writeFS fs p c) p = some c := by
  unfold getFile writeFS
  rw [find?_setFile_self]
  rfl

theorem getFile_writeFS_other (fs : FS) (p c q : Str) (h : q ≠ p) :
    getFile (writeFS fs p c) q = getFile fs q := by
  unfold getFile writeFS
  rw [find?_setFile_other fs.files p c q h]

theorem keys_writeFS (fs : FS) (p c : Str) :
    keys (writeFS fs p c) = if p ∈ keys fs then keys fs else keys fs ++ [p] :=
  setFile_keys fs.files p c

theorem dirs_writeFS (fs : FS) (p c : Str) : (writeFS fs p c).dirs = fs.dirs := rfl

theorem keys_writeFS_nodup (fs : FS) (p c : Str) (h : (keys fs).Nodup) :
    (keys (writeFS fs p c)).Nodup := by
  rw [keys_writeFS]
  by_cases hm : p ∈ keys fs
  · simpa [hm] using h
  · simp [hm, List.nodup_append, h]

theorem getFile_mem {fs : FS} {q c : Str} (h : getFile fs q = some c) : q ∈ keys fs := by
  unfold getFile at h
  rcases Option.map_eq_some'.mp h with ⟨e, he, _⟩
  have h1 : e.1 = q := by simpa using List.find?_some he
  have h2 := List.mem_of_find?_eq_some he
  exact h1 ▸ List.mem_map_of_mem Prod.fst h2

/-! Facts about shell word splitting. -/

theorem tokA_append_space (a : Str) : ∀ acc b : Str,
    tokA acc (a ++ ' ' :: b) = tokA acc a ++ tokA [] b := by
  induction a with
  | nil =>
    intro acc b
    by_cases h : acc = []
    · simp [tokA, h]
    · simp [tokA, h]
  | cons c as ih =>
    intro acc b
    by_cases hc : c = ' '
    · subst hc
      by_cases h : acc = []
      · simp [tokA, h, ih]
      · simp [tokA, h, ih]
    · simp [tokA, hc, ih]

theorem tokA_noSpace (a : Str) : ∀ acc : Str, (∀ c ∈ a, c ≠ ' ') →
    tokA acc a = if acc = [] ∧ a = [] then [] else [acc.reverse ++ a] := by
  induction a with
  | nil =>
    intro acc _
    by_cases h : acc = []
    · simp [tokA, h]
    · simp [tokA, h]
  | cons c as ih =>
    intro acc hns
    have hc : c ≠ ' ' := hns c (List.mem_cons_self c as)
    have hns2 : ∀ x ∈ as, x ≠ ' ' := fun x hx => hns x (List.mem_cons_of_mem c hx)
    simp only [tokA]
    rw [if_neg hc, ih (c :: acc) hns2]
    simp [List.append_assoc]

theorem tokenize_single (a : Str) (h1 : ∀ c ∈ a, c ≠ ' ') (h2 : a ≠ []) :
    tokenize a = [a] := by
  unfold tokenize
  rw [tokA_noSpace a [] h1]
  simp [h2]

theorem tokenize_append_space (a b : Str) :
    tokenize (a ++ ' ' :: b) = tokenize a ++ tokenize b :=
  tokA_append_space a [] b

/-! The shape of line 9's command for a space-free path. -/

theorem cmdStr_decomp (p : Str) :
    cmdStr p = "krun".toList ++ ' ' ::
      ("--search".toList ++ ' ' :: (p ++ ' ' :: ('>' :: ' ' :: (p ++ outExt)))) := by
  simp only [cmdStr, List.append_assoc]
  rfl

theorem outExt_no_space : ∀ c ∈ outExt, c ≠ ' ' := by decide

theorem tokenize_cmd (p : Str) (hs : ∀ c ∈ p, c ≠ ' ') (hne : p ≠ []) :
    tokenize (cmdStr p) =
      ["krun".toList, "--search".toList, p, ['>'], p ++ outExt] := by
  have hs2 : ∀ c ∈ p ++ outExt, c ≠ ' ' := by
    intro c hc
    rcases List.mem_append.mp hc with h | h
    · exact hs c h
    · exact outExt_no_space c h
  have hne2 : p ++ outExt ≠ [] := fun h => hne (List.append_eq_nil.mp h).1
  have h3 : tokenize ('>' :: ' ' :: (p ++ outExt)) = ['>'] :: tokenize (p ++ outExt) := by
    simp [tokenize, tokA]
  rw [cmdStr_decomp, tokenize_append_space, tokenize_append_space,
      tokenize_append_space, tokenize_single p hs hne, h3,
      tokenize_single (p ++ outExt) hs2 hne2]
  rfl

theorem parse_cmd_toks (p : Str) (hp : p ≠ ['>']) :
    parseToks ["krun".toList, "--search".toList, p, ['>'], p ++ outExt] =
      some ⟨["krun".toList, "--search".toList, p], [p ++ outExt]⟩ := by
  simp [parseToks, hp]

/-! Shell-safe names keep the interpolated command well-behaved. -/

theorem shellSafe_no_space {n : Str} (h : shellSafe n = true) : ∀ c ∈ n, c ≠ ' ' := by
  intro c hc hsp
  subst hsp
  have h2 := (List.all_eq_true.mp h) _ hc
  exact absurd h2 (by decide)

theorem testDir_no_space : ∀ c ∈ TEST_DIR, c ≠ ' ' := by decide

theorem joinT_no_space {n : Str} (h : shellSafe n = true) : ∀ c ∈ joinT n, c ≠ ' ' := by
  intro c hc
  unfold joinT at hc
  rcases List.mem_append.mp hc with h1 | h1
  · exact testDir_no_space c h1
  · rcases List.mem_cons.mp h1 with h2 | h2
    · subst h2; decide
    · exact shellSafe_no_space h c h2

theorem step_safe (k : Oracle) (fs : FS) (n : Str) (h : shellSafe n = true) :
    step k fs n =
      writeFS (writeFS fs (outPath n) []) (outPath n)
        (k ["--search".toList, joinT n]).stdout := by
  unfold step execCmd
  rw [tokenize_cmd (joinT n) (joinT_no_space h) (joinT_ne_nil n),
      parse_cmd_toks (joinT n) (joinT_ne_gt n)]
  simp [outPath]

theorem invOf_safe (n : Str) (h : shellSafe n = true) :
    invOf n = ⟨n, joinT n, some "krun".toList,
      ["--search".toList, joinT n], [outPath n]⟩ := by
  unfold invOf
  rw [tokenize_cmd (joinT n) (joinT_no_space h) (joinT_ne_nil n),
      parse_cmd_toks (joinT n) (joinT_ne_gt n)]
  simp [outPath]

theorem invOf_name (n : Str) : (invOf n).name = n := by
  unfold invOf
  split <;> rfl

theorem invOf_input (n : Str) : (invOf n).input = joinT n := by
  unfold invOf
  split <;> rfl

/-! Facts about the loop, valid for arbitrary entry names. -/

theorem runBody_trace (k : Oracle) (ns : List Str) :
    ∀ fs : FS, (runBody k fs ns).2 = ns.map invOf := by
  induction ns with
  | nil => intro fs; rfl
  | cons n ms ih => intro fs; simp [runBody, ih]

theorem execCmd_dirs (k : Oracle) (fs : FS) (cmd : Str) :
    (execCmd k fs cmd).dirs = fs.dirs := by
  have hfold : ∀ (ts : List Str) (a : FS),
      (ts.foldl (fun a t => writeFS a t []) a).dirs = a.dirs := by
    intro ts
    induction ts with
    | nil => intro a; rfl
    | cons t ts ih => intro a; rw [List.foldl_cons, ih, dirs_writeFS]
  unfold execCmd
  split
  · rfl
  · split
    · exact hfold _ _
    · split
      · exact hfold _ _
      · rw [dirs_writeFS, hfold]

theorem step_dirs (k : Oracle) (fs : FS) (n : Str) : (step k fs n).dirs = fs.dirs :=
  execCmd_dirs k fs _

theorem runBody_dirs (k : Oracle) (ns : List Str) :
    ∀ fs : FS, (runBody k fs ns).1.dirs = fs.dirs := by
  induction ns with
  | nil => intro fs; rfl
  | cons n ms ih =>
    intro fs
    simp only [runBody]
    rw [ih (step k fs n), step_dirs]

theorem execCmd_congr {k k' : Oracle} (h : ∀ a, (k a).stdout = (k' a).stdout)
    (fs : FS) (cmd : Str) : execCmd k fs cmd = execCmd k' fs cmd := by
  unfold execCmd
  split
  · rfl
  · split
    · rfl
    · split
      · rfl
      · rw [h]

theorem runBody_congr {k k' : Oracle} (h : ∀ a, (k a).stdout = (k' a).stdout)
    (ns : List Str) : ∀ fs : FS, runBody k fs ns = runBody k' fs ns := by
  induction ns with
  | nil => intro fs; rfl
  | cons m ms ih =>
    intro fs
    simp only [runBody]
    rw [show step k fs m = step k' fs m from execCmd_congr h fs _, ih]

theorem execCmd_nodup (k : Oracle) (fs : FS) (cmd : Str) (h : (keys fs).Nodup) :
    (keys (execCmd k fs cmd)).Nodup := by
  have hfold : ∀ (ts : List Str) (a : FS), (keys a).Nodup →
      (keys (ts.foldl (fun a t => writeFS a t []) a)).Nodup := by
    intro ts
    induction ts with
    | nil => intro a ha; exact ha
    | cons t ts ih =>
      intro a ha
      rw [List.foldl_cons]
      exact ih _ (keys_writeFS_nodup a t [] ha)
  unfold execCmd
  split
  · exact h
  · split
    · exact hfold _ _ h
    · split
      · exact hfold _ _ h
      · exact keys_writeFS_nodup _ _ _ (hfold _ _ h)

theorem runBody_nodup (k : Oracle) (ns : List Str) :
    ∀ fs : FS, (keys fs).Nodup → (keys (runBody k fs ns).1).Nodup := by
  induction ns with
  | nil => intro fs h; exact h
  | cons m ms ih =>
    intro fs h
    simp only [runBody]
    exact ih (step k fs m) (execCmd_nodup k fs _ h)

/-! Facts about the loop over shell-safe names. -/

theorem runBody_get_untouched (k : Oracle) (ns : List Str) :
    ∀ (fs : FS) (q : Str), (∀ n ∈ ns, shellSafe n = true) → (∀ n ∈ ns, q ≠ outPath n) →
      getFile (runBody k fs ns).1 q = getFile fs q := by
  induction ns with
  | nil => intro fs q _ _; rfl
  | cons m ms ih =>
    intro fs q hs hq
    have hm : shellSafe m = true := hs m (List.mem_cons_self m ms)
    simp only [runBody]
    rw [ih (step k fs m) q (fun n hn => hs n (List.mem_cons_of_mem m hn))
          (fun n hn => hq n (List.mem_cons_of_mem m hn)),
        step_safe k fs m hm,
        getFile_writeFS_other _ _ _ _ (hq m (List.mem_cons_self m ms)),
        getFile_writeFS_other _ _ _ _ (hq m (List.mem_cons_self m ms))]

theorem runBody_get_out (k : Oracle) (ns : List Str) :
    ∀ fs : FS, ns.Nodup → (∀ n ∈ ns, shellSafe n = true) → ∀ n ∈ ns,
      getFile (runBody k fs ns).1 (outPath n) =
        some (k ["--search".toList, joinT n]).stdout := by
  induction ns with
  | nil => intro fs _ _ n hn; cases hn
  | cons m ms ih =>
    intro fs hnd hs n hn
    have hm : shellSafe m = true := hs m (List.mem_cons_self m ms)
    rcases List.mem_cons.mp hn with rfl | hn2
    · have hnotin : n ∉ ms := (List.nodup_cons.mp hnd).1
      have hqq : ∀ x ∈ ms, outPath n ≠ outPath x := fun x hx heq =>
        hnotin (by rw [outPath_inj heq]; exact hx)
      simp only [runBody]
      rw [runBody_get_untouched k ms (step k fs n) (outPath n)
            (fun x hx => hs x (List.mem_cons_of_mem _ hx)) hqq,
          step_safe k fs n hm, getFile_writeFS_self]
    · simp only [runBody]
      exact ih (step k fs m) (List.nodup_cons.mp hnd).2
        (fun x hx => hs x (List.mem_cons_of_mem _ hx)) n hn2

theorem step_keys_safe (k : Oracle) (fs : FS) (n : Str) (h : shellSafe n = true) :
    keys (step k fs n) =
      if outPath n ∈ keys fs then keys fs else keys fs ++ [outPath n] := by
  rw [step_safe k fs n h, keys_writeFS, keys_writeFS]
  by_cases hm : outPath n ∈ keys fs
  · simp [hm]
  · simp [hm]

theorem runBody_keys_ext (k : Oracle) (ns : List Str) :
    ∀ fs : FS, (∀ n ∈ ns, shellSafe n = true) →
      ∃ L, keys (runBody k fs ns).1 = keys fs ++ L ∧
        ∀ q ∈ L, ∃ n ∈ ns, q = outPath n := by
  induction ns with
  | nil => intro fs _; exact ⟨[], by simp [runBody], by simp⟩
  | cons m ms ih =>
    intro fs hs
    have hm := hs m (List.mem_cons_self m ms)
    rcases ih (step k fs m) (fun x hx => hs x (List.mem_cons_of_mem _ hx)) with
      ⟨L, hL, hmem⟩
    simp only [runBody]
    by_cases hin : outPath m ∈ keys fs
    · refine ⟨L, ?_, ?_⟩
      · rw [hL, step_keys_safe k fs m hm, if_pos hin]
      · intro q hq
        rcases hmem q hq with ⟨n, hn, hqe⟩
        exact ⟨n, List.mem_cons_of_mem _ hn, hqe⟩
    · refine ⟨outPath m :: L, ?_, ?_⟩
      · rw [hL, step_keys_safe k fs m hm, if_neg hin]
        simp
      · intro q hq
        rcases List.mem_cons.mp hq with rfl | hq2
        · exact ⟨m, List.mem_cons_self m ms, rfl⟩
        · rcases hmem q hq2 with ⟨n, hn, hqe⟩
          exact ⟨n, List.mem_cons_of_mem _ hn, hqe⟩

theorem runBody_keys_id (k : Oracle) (ns : List Str) :
    ∀ fs : FS, (∀ n ∈ ns, shellSafe n = true) → (∀ n ∈ ns, outPath n ∈ keys fs) →
      keys (runBody k fs ns).1 = keys fs := by
  induction ns with
  | nil => intro fs _ _; rfl
  | cons m ms ih =>
    intro fs hs hp
    have hm := hs m (List.mem_cons_self m ms)
    have hkeys : keys (step k fs m) = keys fs := by
      rw [step_keys_safe k fs m hm, if_pos (hp m (List.mem_cons_self m ms))]
    simp only [runBody]
    rw [ih (step k fs m) (fun x hx => hs x (List.mem_cons_of_mem _ hx))
          (fun x hx => hkeys.symm ▸ hp x (List.mem_cons_of_mem _ hx)),
        hkeys]

/-! Facts about the enumeration and filtering of line 6. -/

theorem isfile_iff {fs : FS} {p : Str} : isfile fs p = true ↔ p ∈ keys fs := by
  unfold isfile keys
  rw [List.any_eq_true]
  constructor
  · rintro ⟨e, he, hp⟩
    have h1 : e.1 = p := by simpa using hp
    exact h1 ▸ List.mem_map_of_mem Prod.fst he
  · intro h
    rcases List.mem_map.mp h with ⟨e, he, hp⟩
    exact ⟨e, he, by simpa using hp⟩

theorem listdir_some {fs : FS} {l : List Str} (h : listdir fs TEST_DIR = some l) :
    TEST_DIR ∈ fs.dirs ∧ l = (keys fs ++ fs.dirs).filterMap (childName TEST_DIR) := by
  unfold listdir at h
  by_cases hd : TEST_DIR ∈ fs.dirs
  · rw [if_pos hd] at h
    injection h with h1
    exact ⟨hd, h1.symm⟩
  · rw [if_neg hd] at h; cases h

theorem inputsOf_eq_some {fs : FS} {ns : List Str} (h : inputsOf fs = some ns) :
    ∃ l, listdir fs TEST_DIR = some l ∧
      ns = l.filter (fun f => isfile fs (joinT f) && !isInfixB outExt f) := by
  unfold inputsOf at h
  rcases Option.map_eq_some'.mp h with ⟨l, hl, hns⟩
  exact ⟨l, hl, hns.symm⟩

theorem mem_inputs {fs : FS} {ns : List Str} (h : inputsOf fs = some ns) {n : Str}
    (hn : n ∈ ns) : isfile fs (joinT n) = true ∧ isInfixB outExt n = false := by
  rcases inputsOf_eq_some h with ⟨l, hl, hns⟩
  subst hns
  have h2 := List.of_mem_filter hn
  rcases Bool.and_eq_true_iff.mp h2 with ⟨h3, h4⟩
  exact ⟨h3, by simpa using h4⟩

theorem inputs_nodup {fs : FS} {ns : List Str} (hwf : wf fs)
    (h : inputsOf fs = some ns) : ns.Nodup := by
  rcases inputsOf_eq_some h with ⟨l, hl, hns⟩
  subst hns
  rcases listdir_some hl with ⟨_, rfl⟩
  exact (hwf.filterMap (fun a b c h1 h2 =>
    childName_inj (Option.mem_def.mp h1) (Option.mem_def.mp h2))).filter _

theorem countP_eq_one_of_nodup_mem {l : List Str} {a : Str} (h : l.Nodup)
    (hm : a ∈ l) : l.countP (fun q => q = a) = 1 := by
  induction l with
  | nil => cases hm
  | cons b bs ih =>
    rcases List.nodup_cons.mp h with ⟨hnb, hnd⟩
    rcases List.mem_cons.mp hm with rfl | hm2
    · rw [List.countP_cons_of_pos _ _ (by simp)]
      have hz : bs.countP (fun q => q = a) = 0 := by
        rw [List.countP_eq_zero]
        intro x hx
        simp only [decide_eq_true_eq]
        intro hxa
        exact hnb (hxa ▸ hx)
      rw [hz]
    · rw [List.countP_cons_of_neg _ _ (by
        simp only [decide_eq_true_eq]
        intro hba
        exact hnb (hba ▸ hm2))]
      exact ih hnd hm2

theorem run_eq_some {k : Oracle} {fs fs' : FS} {tr : List Inv}
    (hrun : run k fs = some (fs', tr)) :
    ∃ ns, inputsOf fs = some ns ∧ (runBody k fs ns).1 = fs' ∧ tr = ns.map invOf := by
  unfold run at hrun
  rcases Option.map_eq_some'.mp hrun with ⟨ns, hns, hr⟩
  have h2 : (runBody k fs ns).2 = tr := congrArg Prod.snd hr
  refine ⟨ns, hns, congrArg Prod.fst hr, ?_⟩
  rw [← h2, runBody_trace]

/-- The computed input list is insensitive to adding files whose paths are
output paths: such files surface as names containing `.out` and are filtered
away, exactly like pre-existing outputs. -/
theorem inputsOf_ext {fs fs1 : FS} {L : List Str}
    (hdirs : fs1.dirs = fs.dirs)
    (hkeys : keys fs1 = keys fs ++ L)
    (hL : ∀ q ∈ L, ∃ n, q = outPath n) :
    inputsOf fs1 = inputsOf fs := by
  have hfile_eq : ∀ q : Str, isInfixB outExt q = false →
      isfile fs1 (joinT q) = isfile fs (joinT q) := by
    intro q hq
    have hiff : isfile fs1 (joinT q) = true ↔ isfile fs (joinT q) = true := by
      rw [isfile_iff, isfile_iff, hkeys, List.mem_append]
      constructor
      · rintro (h | h)
        · exact h
        · exfalso
          rcases hL _ h with ⟨n, hn⟩
          have h2 : q = n ++ outExt := joinT_inj (by rw [hn, outPath_eq_joinT])
          rw [h2] at hq
          simp [isInfixB_suffix] at hq
      · exact Or.inl
    cases h1 : isfile fs1 (joinT q) with
    | true => exact (hiff.mp h1).symm
    | false =>
      cases h2 : isfile fs (joinT q) with
      | true => exact absurd (hiff.mpr h2) (by rw [h1]; decide)
      | false => rfl
  unfold inputsOf listdir
  rw [hdirs]
  by_cases hd : TEST_DIR ∈ fs.dirs
  · rw [if_pos hd, if_pos hd]
    simp only [Option.map_some']
    congr 1
    rw [hkeys, List.append_assoc, List.filterMap_append, List.filterMap_append,
        List.filterMap_append, List.filter_append, List.filter_append,
        List.filter_append]
    have hfmL : (L.filterMap (childName TEST_DIR)).filter
        (fun f => isfile fs1 (joinT f) && !isInfixB outExt f) = [] := by
      rw [List.filter_eq_nil_iff]
      intro q hq
      rcases List.mem_filterMap.mp hq with ⟨lq, hlq, hcq⟩
      rcases hL _ hlq with ⟨n, hn⟩
      have hshape := childName_some_shape hcq
      have h2 : q = n ++ outExt := by
        apply joinT_inj
        rw [show joinT q = lq from hshape.symm, hn, outPath_eq_joinT]
      rw [h2]
      simp [isInfixB_suffix]
    have hfmK : ((keys fs).filterMap (childName TEST_DIR)).filter
          (fun f => isfile fs1 (joinT f) && !isInfixB outExt f) =
        ((keys fs).filterMap (childName TEST_DIR)).filter
          (fun f => isfile fs (joinT f) && !isInfixB outExt f) := by
      apply List.filter_congr
      intro q hq
      rcases List.mem_filterMap.mp hq with ⟨kq, hkq, hcq⟩
      have hshape := childName_some_shape hcq
      have hjq : joinT q ∈ keys fs := by
        show TEST_DIR ++ '/' :: q ∈ keys fs
        rw [← hshape]
        exact hkq
      have h1 : isfile fs (joinT q) = true := isfile_iff.mpr hjq
      have h2 : isfile fs1 (joinT q) = true :=
        isfile_iff.mpr (by rw [hkeys]; exact List.mem_append_left _ hjq)
      rw [h1, h2]
    have hfmD : (fs.dirs.filterMap (childName TEST_DIR)).filter
          (fun f => isfile fs1 (joinT f) && !isInfixB outExt f) =
        (fs.dirs.filterMap (childName TEST_DIR)).filter
          (fun f => isfile fs (joinT f) && !isInfixB outExt f) := by
      apply List.filter_congr
      intro q hq
      cases hinf : isInfixB outExt q with
      | true => simp
      | false => rw [hfile_eq q hinf]
    rw [hfmL, hfmK, hfmD]
    simp
  · rw [if_neg hd, if_neg hd]
    rfl

/-! The claims. -/

/-- C1 counterexample: `a b` is a regular file directly inside `tests` whose
name does not contain `.out`, yet after one run no file named
`tests/a b.out` exists: the unquoted space makes the shell redirect to
`tests/a` instead, so the claim fails as stated. -/
theorem c1_counterexample :
    inputsOf exBadFS = some ["a b".toList] ∧
    (run exOracle exBadFS).map (fun r => getFile r.1 ("tests/a b.out".toList)) =
      some none := by decide

/-- C1 (amended): for every regular file `f` directly inside the target
directory whose name does not contain `.out`, provided the directory listing
is duplicate-free and every qualifying name is shell-safe, after one run there
exists a file `f ++ ".out"` alongside `f` whose content is the captured
standard output of invoking the external search command on `f`. -/
theorem c1_output_content (k : Oracle) (fs : FS) (ns : List Str) (fs' : FS)
    (tr : List Inv) (hwf : wf fs) (hin : inputsOf fs = some ns)
    (hsafe : ∀ n ∈ ns, shellSafe n = true)
    (hrun : run k fs = some (fs', tr)) (f : Str) (hf : f ∈ ns) :
    getFile fs' (outPath f) = some (k ["--search".toList, joinT f]).stdout := by
  rcases run_eq_some hrun with ⟨ns2, hin2, hfs, htr⟩
  rw [hin] at hin2
  injection hin2 with he
  subst he
  rw [← hfs]
  exact runBody_get_out k ns fs (inputs_nodup hwf hin) hsafe f hf

/-- C1 witness: the amended theorem applied to a concrete one-file directory. -/
theorem c1_output_content_witness :
    getFile exFS1 (outPath "a.test".toList) =
      some (exOracle ["--search".toList, joinT "a.test".toList]).stdout :=
  c1_output_content exOracle exFS ["a.test".toList] exFS1 exTr
    (by decide) (by decide) (by decide) (by decide) "a.test".toList (by decide)

/-- C2: for every file `f` whose name contains `.out`, no invocation of a run
uses `tests/f` as its input path; line 6 filters such names out. -/
theorem c2_no_out_inputs (k : Oracle) (fs fs' : FS) (tr : List Inv)
    (hrun : run k fs = some (fs', tr)) (f : Str)
    (hf : isInfixB outExt f = true) :
    ∀ inv ∈ tr, inv.input ≠ joinT f := by
  rcases run_eq_some hrun with ⟨ns, hin, _, htr⟩
  subst htr
  intro inv hinv heq
  rcases List.mem_map.mp hinv with ⟨n, hn, rfl⟩
  rw [invOf_input] at heq
  have hn2 := (mem_inputs hin hn).2
  rw [joinT_inj heq] at hn2
  rw [hf] at hn2
  exact Bool.noConfusion hn2

/-- C2 witness: the one invocation over `exFS` does not have `tests/x.out` as
its input. -/
theorem c2_no_out_inputs_witness : exInv.input ≠ joinT "x.out".toList :=
  c2_no_out_inputs exOracle exFS exFS1 exTr (by decide) "x.out".toList (by decide)
    exInv (by decide)

/-- C3 counterexample: the qualifying input `a b` yields zero files named
`tests/a b.out`, so it is an input with no corresponding output file and the
invariant fails as stated. -/
theorem c3_counterexample :
    inputsOf exBadFS = some ["a b".toList] ∧
    (run exOracle exBadFS).map
      (fun r => (keys r.1).countP (fun q => q = "tests/a b.out".toList)) =
      some 0 := by decide

/-- C3 (amended): provided the filesystem listing is duplicate-free and every
qualifying name is shell-safe, each qualifying input `f` produces exactly one
output file, deterministically named input path plus `.out`. -/
theorem c3_unique_output (k : Oracle) (fs : FS) (ns : List Str) (fs' : FS)
    (tr : List Inv) (hwf : wf fs) (hin : inputsOf fs = some ns)
    (hsafe : ∀ n ∈ ns, shellSafe n = true)
    (hrun : run k fs = some (fs', tr)) (f : Str) (hf : f ∈ ns) :
    (keys fs').countP (fun q => q = outPath f) = 1 := by
  rcases run_eq_some hrun with ⟨ns2, hin2, hfs, htr⟩
  rw [hin] at hin2
  injection hin2 with he
  subst he
  have hnd := inputs_nodup hwf hin
  have hmem : outPath f ∈ keys fs' := by
    rw [← hfs]
    exact getFile_mem (runBody_get_out k ns fs hnd hsafe f hf)
  have hnodup : (keys fs').Nodup := by
    rw [← hfs]
    exact runBody_nodup k ns fs (List.nodup_append.mp hwf).1
  exact countP_eq_one_of_nodup_mem hnodup hmem

/-- C3 witness: the amended theorem at the concrete one-file directory. -/
theorem c3_unique_output_witness :
    (keys exFS1).countP (fun q => q = outPath "a.test".toList) = 1 :=
  c3_unique_output exOracle exFS ["a.test".toList] exFS1 exTr (by decide)
    (by decide) (by decide) (by decide) "a.test".toList (by decide)

/-- C4 counterexample: with the space-named input `a b`, the first run creates
the stray file `tests/a`, the second run picks `a` up as a fresh input and
creates the new output `tests/a.out`: outputs accumulate, so two runs are not
idempotent on the set of file names. -/
theorem c4_counterexample :
    ((run exOracle exBadFS).bind (fun r1 =>
      (run exOracle r1.1).map (fun r2 =>
        (keys r2.1).contains ("tests/a.out".toList) &&
          !((keys r1.1).contains ("tests/a.out".toList))))) = some true := by decide

/-- C4 (amended): provided the filesystem listing is duplicate-free and every
qualifying name is shell-safe, a second run repeats exactly the same
invocations, overwrites each output file with the latest captured output,
creates no file the first run did not already create (in particular no
`.out.out` names, since every file the first run adds is an output path of a
qualifying input), and leaves the set of file names unchanged. -/
theorem c4_idempotent (k : Oracle) (fs : FS) (ns : List Str) (fs1 fs2 : FS)
    (tr1 tr2 : List Inv) (hwf : wf fs) (hin : inputsOf fs = some ns)
    (hsafe : ∀ n ∈ ns, shellSafe n = true)
    (hrun1 : run k fs = some (fs1, tr1))
    (hrun2 : run k fs1 = some (fs2, tr2)) :
    keys fs2 = keys fs1 ∧ tr2 = tr1 ∧
      (∀ f ∈ ns, getFile fs2 (outPath f) =
        some (k ["--search".toList, joinT f]).stdout) ∧
      ∀ p ∈ keys fs1, p ∉ keys fs → ∃ n ∈ ns, p = outPath n := by
  rcases run_eq_some hrun1 with ⟨nsa, hina, hfs1, htr1⟩
  rw [hin] at hina
  injection hina with he
  subst he
  have hnd := inputs_nodup hwf hin
  rcases runBody_keys_ext k ns fs hsafe with ⟨L, hK, hLmem⟩
  have hdirs1 : fs1.dirs = fs.dirs := by rw [← hfs1]; exact runBody_dirs k ns fs
  have hkeys1 : keys fs1 = keys fs ++ L := by rw [← hfs1]; exact hK
  have hout1 : ∀ n ∈ ns, outPath n ∈ keys fs1 := by
    intro n hn
    rw [← hfs1]
    exact getFile_mem (runBody_get_out k ns fs hnd hsafe n hn)
  have hinputs1 : inputsOf fs1 = some ns := by
    rw [inputsOf_ext hdirs1 hkeys1 (fun q hq => by
      rcases hLmem q hq with ⟨n, _, hqe⟩
      exact ⟨n, hqe⟩)]
    exact hin
  rcases run_eq_some hrun2 with ⟨nsb, hinb, hfs2, htr2⟩
  rw [hinputs1] at hinb
  injection hinb with he2
  subst he2
  refine ⟨?_, ?_, ?_, ?_⟩
  · rw [← hfs2]
    exact runBody_keys_id k ns fs1 hsafe hout1
  · rw [htr2, htr1]
  · intro f hf
    rw [← hfs2]
    exact runBody_get_out k ns fs1 hnd hsafe f hf
  · intro p hp hnp
    rw [hkeys1] at hp
    rcases List.mem_append.mp hp with h | h
    · exact absurd h hnp
    · exact hLmem p h

/-- C4 witness: on the concrete one-file directory the second run reproduces
the first run's state and trace. -/
theorem c4_idempotent_witness :
    keys exFS1 = keys exFS1 ∧ exTr = exTr ∧
      (∀ f ∈ ["a.test".toList], getFile exFS1 (outPath f) =
        some (exOracle ["--search".toList, joinT f]).stdout) ∧
      ∀ p ∈ keys exFS1, p ∉ keys exFS → ∃ n ∈ ["a.test".toList], p = outPath n :=
  c4_idempotent exOracle exFS ["a.test".toList] exFS1 exFS1 exTr exTr
    (by decide) (by decide) (by decide) (by decide) (by decide)

/-- C5 counterexample: for the qualifying input `a b` the single invocation's
argument list is not `--search` followed by exactly `tests/a b`; the path is
split and `b.out` even becomes an extra argument. -/
theorem c5_counterexample :
    inputsOf exBadFS = some ["a b".toList] ∧
    (run exOracle exBadFS).map (fun r => r.2.map Inv.args) =
      some [["--search".toList, "tests/a".toList, "b".toList, "b.out".toList]] ∧
    ["--search".toList, "tests/a".toList, "b".toList, "b.out".toList] ≠
      ["--search".toList, "tests/a b".toList] := by decide

/-- C5 (amended): provided the filesystem listing is duplicate-free and every
qualifying name is shell-safe, each input `tests/<name>` is processed by an
invocation of `krun` with `--search` followed by exactly that path and a
single redirection to `tests/<name>.out`, whose final content is the captured
standard output of that invocation. -/
theorem c5_invocation_shape (k : Oracle) (fs : FS) (ns : List Str) (fs' : FS)
    (tr : List Inv) (hwf : wf fs) (hin : inputsOf fs = some ns)
    (hsafe : ∀ n ∈ ns, shellSafe n = true)
    (hrun : run k fs = some (fs', tr)) (f : Str) (hf : f ∈ ns) :
    (⟨f, joinT f, some "krun".toList, ["--search".toList, joinT f],
      [outPath f]⟩ : Inv) ∈ tr ∧
      getFile fs' (outPath f) = some (k ["--search".toList, joinT f]).stdout := by
  rcases run_eq_some hrun with ⟨ns2, hin2, hfs, htr⟩
  rw [hin] at hin2
  injection hin2 with he
  subst he
  constructor
  · subst htr
    rw [← invOf_safe f (hsafe f hf)]
    exact List.mem_map_of_mem invOf hf
  · rw [← hfs]
    exact runBody_get_out k ns fs (inputs_nodup hwf hin) hsafe f hf

/-- C5 witness: the amended theorem at the concrete one-file directory. -/
theorem c5_invocation_shape_witness :
    (⟨"a.test".toList, joinT "a.test".toList, some "krun".toList,
      ["--search".toList, joinT "a.test".toList],
      [outPath "a.test".toList]⟩ : Inv) ∈ exTr ∧
      getFile exFS1 (outPath "a.test".toList) =
        some (exOracle ["--search".toList, joinT "a.test".toList]).stdout :=
  c5_invocation_shape exOracle exFS ["a.test".toList] exFS1 exTr (by decide)
    (by decide) (by decide) (by decide) "a.test".toList (by decide)

/-- C6: when the target directory does not exist, the run fails with the
uncontrolled enumeration error of line 6 — there is no result at all, hence
no invocation occurs and no output file is created. -/
theorem c6_missing_dir (k : Oracle) (fs : FS) (h : TEST_DIR ∉ fs.dirs) :
    run k fs = none := by
  unfold run inputsOf listdir
  rw [if_neg h]
  rfl

/-- C6 witness: the theorem at an empty filesystem. -/
theorem c6_missing_dir_witness : run exOracle (FS.mk [] []) = none :=
  c6_missing_dir exOracle (FS.mk [] []) (by decide)

/-- C7: the run never inspects the external command's exit code — two
commands with the same standard output, however they exit (including the
absent-command exit), produce identical runs — and every qualifying file is
processed: the trace lists exactly the qualifying names, in order. -/
theorem c7_failures_ignored (k k' : Oracle) (fs : FS)
    (h : ∀ a, (k a).stdout = (k' a).stdout) :
    run k fs = run k' fs ∧
      (run k fs).map (fun r => r.2.map Inv.name) = inputsOf fs := by
  constructor
  · unfold run
    cases hin : inputsOf fs with
    | none => rfl
    | some ns => simp [runBody_congr h ns fs]
  · unfold run
    cases hin : inputsOf fs with
    | none => rfl
    | some ns =>
      simp only [Option.map_some']
      congr 1
      rw [runBody_trace, List.map_map]
      have h2 : (Inv.name ∘ invOf) = id := by
        funext n
        exact invOf_name n
      rw [h2, List.map_id]

/-- C7 witness: a silently succeeding command and an absent command (exit
code 127) with the same empty output give identical runs over `exFS`. -/
theorem c7_failures_ignored_witness :
    run exSilentOracle exFS = run exAbsentOracle exFS ∧
      (run exSilentOracle exFS).map (fun r => r.2.map Inv.name) =
        inputsOf exFS :=
  c7_failures_ignored exSilentOracle exAbsentOracle exFS (fun _ => rfl)

/-- C8: every invocation's input path is a file of the pre-run snapshot, so
any file that exists only after the run (in particular any output file the
run created) is never used as an input of that same run. -/
theorem c8_snapshot_inputs (k : Oracle) (fs fs' : FS) (tr : List Inv)
    (hrun : run k fs = some (fs', tr)) :
    ∀ inv ∈ tr, inv.input ∈ keys fs ∧
      ∀ p, p ∈ keys fs' → p ∉ keys fs → inv.input ≠ p := by
  rcases run_eq_some hrun with ⟨ns, hin, _, htr⟩
  subst htr
  intro inv hinv
  rcases List.mem_map.mp hinv with ⟨n, hn, rfl⟩
  rw [invOf_input]
  have hmem : joinT n ∈ keys fs := isfile_iff.mp (mem_inputs hin hn).1
  exact ⟨hmem, fun p hp hnp heq => hnp (heq ▸ hmem)⟩

/-- C8 witness: the theorem at the concrete one-file directory, for its one
invocation. -/
theorem c8_snapshot_inputs_witness :
    exInv.input ∈ keys exFS ∧
      ∀ p, p ∈ keys exFS1 → p ∉ keys exFS → exInv.input ≠ p :=
  c8_snapshot_inputs exOracle exFS exFS1 exTr (by decide) exInv (by decide)

/-- C9 counterexample: for the qualifying input `a b` even the
redirection-created file is not named `tests/a b.out` (the shell truncates
`tests/a` instead), so with an absent command no file `tests/a b.out` exists
after the run and the claim fails as stated. -/
theorem c9_counterexample :
    inputsOf exBadFS = some ["a b".toList] ∧
    (run exAbsentOracle exBadFS).map
      (fun r => getFile r.1 ("tests/a b.out".toList)) = some none := by decide

/-- C9 (amended): provided the filesystem listing is duplicate-free and every
qualifying name is shell-safe, the output file `f ++ ".out"` exists after the
run for every qualifying input `f` and every external command whatsoever —
including a failing or absent one, whose invocation leaves an empty file
rather than no file, because the redirection opens the output before the
command runs. -/
theorem c9_output_always_created (k : Oracle) (fs : FS) (ns : List Str)
    (fs' : FS) (tr : List Inv) (hwf : wf fs) (hin : inputsOf fs = some ns)
    (hsafe : ∀ n ∈ ns, shellSafe n = true)
    (hrun : run k fs = some (fs', tr)) (f : Str) (hf : f ∈ ns) :
    ∃ c, getFile fs' (outPath f) = some c := by
  rcases run_eq_some hrun with ⟨ns2, hin2, hfs, htr⟩
  rw [hin] at hin2
  injection hin2 with he
  subst he
  refine ⟨(k ["--search".toList, joinT f]).stdout, ?_⟩
  rw [← hfs]
  exact runBody_get_out k ns fs (inputs_nodup hwf hin) hsafe f hf

/-- C9 witness: with the absent command the output file still exists (empty). -/
theorem c9_output_always_created_witness :
    ∃ c, getFile exAbsFS1 (outPath "a.test".toList) = some c :=
  c9_output_always_created exAbsentOracle exFS ["a.test".toList] exAbsFS1 exTr
    (by decide) (by decide) (by decide) (by decide) "a.test".toList (by decide)

/-- C10: the command line is built by direct interpolation with no quoting,
so for the input name `a b` (which contains a space) the invoked command does
not receive that single path as the argument after `--search` and does not
redirect to that path plus `.out`: the arguments are split and the
redirection goes to `tests/a`. -/
theorem c10_no_quoting :
    inputsOf exBadFS = some ["a b".toList] ∧
    ' ' ∈ "a b".toList ∧
    (run exOracle exBadFS).map
      (fun r => r.2.map (fun i => (i.args, i.redirs))) =
      some [(["--search".toList, "tests/a".toList, "b".toList, "b.out".toList],
             ["tests/a".toList])] ∧
    ["--search".toList, "tests/a".toList, "b".toList, "b.out".toList] ≠
      ["--search".toList, "tests/a b".toList] ∧
    ["tests/a".toList] ≠ ["tests/a b.out".toList] := by decide

end GenTestOutput
